import Mathlib

/-!
Verification of core components of a differential dataflow / incremental
view-maintenance engine (Z-sets, consolidation, incremental aggregation,
cursors, product timestamps, worker runtime services).

Weights are modelled as mathematical integers (the engine instantiates its
weight ring at signed machine integers; overflow behaviour is modelled
separately for the checked wrapper).  Vectors are modelled as lists, in-place
mutation as functional update, and the hash map of a Z-set as an association
list.
-/

namespace DBSP

/-! ## Consolidation (trace/consolidation.rs)

The source sorts a vector of (data, weight) pairs by the data component with a
stable comparison sort, then compacts runs of equal data in place with a write
offset and a read index, accumulating weights and dropping accumulations that
end at zero.  The model below renders the vector as a list, the stable sort as
insertion sort (stable, and sorted with respect to the same comparator), the
in-place writes as List.set, and the bounded loop "for index in 1..len" as
fuel-indexed structural recursion with fuel = len - 1. -/

/-- The stable sort "slice.sort_by(|(key1, _), (key2, _)| key1.cmp(key2))":
sort by first components only. -/
def sortByFst {T : Type} [LinearOrder T] (l : List (T × Int)) : List (T × Int) :=
  l.insertionSort (fun p q => p.1 ≤ q.1)

/-- The compaction loop of consolidate_slice.  State: list contents, write
offset o, read index i (the fuel counts remaining iterations, len - i).
At each iteration the loop reads slice[offset] and slice[index]; on equal data
it accumulates the weight into slice[offset]; otherwise it bumps the offset
past a non-zero accumulation and swaps slice[offset] with slice[index]
(ptr::swap becomes two List.set calls on the values read beforehand). -/
def csLoopAux {T : Type} [LinearOrder T] [Inhabited T] :
    Nat → List (T × Int) → Nat → Nat → List (T × Int) × Nat
  | 0, l, o, _ => (l, o)
  | fuel + 1, l, o, i =>
    let p1 := l.getD o (default, 0)
    let p2 := l.getD i (default, 0)
    if p1.1 = p2.1 then
      csLoopAux fuel (l.set o (p1.1, p1.2 + p2.2)) o (i + 1)
    else
      let o2 := if p1.2 ≠ 0 then o + 1 else o
      let q := l.getD o2 (default, 0)
      csLoopAux fuel ((l.set o2 p2).set i q) o2 (i + 1)

/-- Model of consolidate_slice: sort by the first component, run the compaction
loop from offset 0, index 1, then apply the final check
"if offset < slice.len() && !slice[offset].1.is_zero() { offset += 1 }".
Returns the permuted contents together with the valid prefix length. -/
def consolidate_slice {T : Type} [LinearOrder T] [Inhabited T] (l : List (T × Int)) :
    List (T × Int) × Nat :=
  let s := sortByFst l
  let r := csLoopAux (s.length - 1) s 0 1
  let off := if r.2 < r.1.length ∧ (r.1.getD r.2 (default, 0)).2 ≠ 0 then r.2 + 1 else r.2
  (r.1, off)

/-- Model of consolidate_from: consolidate vec[offset..] in place, then
truncate the vector to offset + length. -/
def consolidate_from {T : Type} [LinearOrder T] [Inhabited T]
    (vec : List (T × Int)) (offset : Nat) : List (T × Int) :=
  let r := consolidate_slice (vec.drop offset)
  (vec.take offset ++ r.1).take (offset + r.2)

/-- Model of consolidate: consolidate_from at offset 0. -/
def consolidate {T : Type} [LinearOrder T] [Inhabited T] (vec : List (T × Int)) :
    List (T × Int) :=
  consolidate_from vec 0

/-- Functional characterisation of the compaction loop: walk the tail of the
sorted list keeping a current accumulator; equal data accumulates, a change of
data emits the accumulator unless its weight is zero. -/
def runAccum {T : Type} [DecidableEq T] (acc : T × Int) : List (T × Int) → List (T × Int)
  | [] => if acc.2 = 0 then [] else [acc]
  | p :: rest =>
    if acc.1 = p.1 then runAccum (acc.1, acc.2 + p.2) rest
    else if acc.2 = 0 then runAccum p rest
    else acc :: runAccum p rest

/-- Reference form of consolidation: sort, then accumulate runs. -/
def consolidatedSpec {T : Type} [LinearOrder T] (l : List (T × Int)) : List (T × Int) :=
  match sortByFst l with
  | [] => []
  | p :: rest => runAccum p rest

/-- The prefix of the loop result selected by the final zero check of
consolidate_slice. -/
def selectValid {T : Type} [Inhabited T] (r : List (T × Int) × Nat) : List (T × Int) :=
  if r.2 < r.1.length ∧ (r.1.getD r.2 (default, 0)).2 ≠ 0 then
    r.1.take (r.2 + 1)
  else
    r.1.take r.2

/-- Total weight a consolidation input assigns to one data value. -/
def keyWeight {T : Type} [DecidableEq T] (t : T) (l : List (T × Int)) : Int :=
  (l.map (fun p => if p.1 = t then p.2 else 0)).sum

theorem take_set_of_le {α : Type} (l : List α) (n m : Nat) (a : α) (h : m ≤ n) :
    (l.set n a).take m = l.take m := by
  rw [List.set_take]
  exact List.set_eq_of_length_le (le_trans (List.length_take_le _ _) h)

theorem drop_set_of_lt {α : Type} (l : List α) (n m : Nat) (a : α) (h : n < m) :
    (l.set n a).drop m = l.drop m := by
  rw [List.drop_set, if_pos h]

theorem getD_set_self {α : Type} (l : List α) (n : Nat) (a d : α) (h : n < l.length) :
    (l.set n a).getD n d = a := by
  rw [List.getD_eq_getElem?_getD, List.getElem?_set_self h]
  rfl

theorem getD_set_ne {α : Type} (l : List α) (n m : Nat) (a d : α) (h : n ≠ m) :
    (l.set n a).getD m d = l.getD m d := by
  rw [List.getD_eq_getElem?_getD, List.getElem?_set_ne h, List.getD_eq_getElem?_getD]

theorem getD_eq_getElem {α : Type} (l : List α) (n : Nat) (d : α) (h : n < l.length) :
    l.getD n d = l.get ⟨n, h⟩ := by
  rw [List.getD_eq_getElem?_getD, List.getElem?_eq_getElem h]
  rfl

/-- The compaction loop computes the run-accumulation of the unread suffix,
appended to the committed prefix: at every loop state, applying the final zero
check to the remaining iterations yields the committed entries (the first o
list positions), followed by the accumulation of the current accumulator
(position o) over the not-yet-read entries (positions from i on). -/
theorem csLoopAux_spec {T : Type} [LinearOrder T] [Inhabited T] :
    ∀ (fuel : Nat) (l : List (T × Int)) (o i : Nat), o < i → i + fuel = l.length →
      selectValid (csLoopAux fuel l o i)
        = l.take o ++ runAccum (l.getD o (default, 0)) (l.drop i) := by
  intro fuel
  induction fuel with
  | zero =>
    intro l o i ho hi
    have hil : i = l.length := by omega
    have hol : o < l.length := by omega
    subst hil
    rw [List.drop_length]
    simp only [csLoopAux, selectValid, runAccum]
    by_cases hz : (l.getD o (default, 0)).2 = 0
    · rw [if_neg (fun h => h.2 hz), if_pos hz, List.append_nil]
    · rw [if_pos ⟨hol, hz⟩, if_neg hz, List.take_succ,
        List.getElem?_eq_getElem hol, getD_eq_getElem l o _ hol]
      rfl
  | succ fuel ih =>
    intro l o i ho hi
    have hil : i < l.length := by omega
    have hol : o < l.length := by omega
    have hdrop : l.drop i = l.getD i (default, 0) :: l.drop (i + 1) := by
      rw [List.drop_eq_getElem_cons hil, getD_eq_getElem l i _ hil]
      rfl
    by_cases hk : (l.getD o (default, 0)).1 = (l.getD i (default, 0)).1
    · -- equal data: accumulate into position o
      have hstep : csLoopAux (fuel + 1) l o i
          = csLoopAux fuel
              (l.set o ((l.getD o (default, 0)).1,
                (l.getD o (default, 0)).2 + (l.getD i (default, 0)).2)) o (i + 1) := by
        simp only [csLoopAux, if_pos hk]
      rw [hstep, ih _ o (i + 1) (by omega) (by simp [List.length_set]; omega)]
      rw [take_set_of_le _ _ _ _ (le_refl o), drop_set_of_lt _ _ _ _ (by omega),
        getD_set_self _ _ _ _ hol, hdrop]
      rw [runAccum, if_pos hk]
    · by_cases hz : (l.getD o (default, 0)).2 = 0
      · -- data changed, zero accumulation: offset stays, swap positions o and i
        have hstep : csLoopAux (fuel + 1) l o i
            = csLoopAux fuel
                ((l.set o (l.getD i (default, 0))).set i (l.getD o (default, 0)))
                o (i + 1) := by
          simp only [csLoopAux, if_neg hk, hz, ne_eq, not_true_eq_false, if_neg,
            ite_false, not_false_eq_true]
        rw [hstep, ih _ o (i + 1) (by omega) (by simp [List.length_set]; omega)]
        rw [take_set_of_le _ _ _ _ (le_of_lt ho), take_set_of_le _ _ _ _ (le_refl o),
          drop_set_of_lt _ _ _ _ (by omega), drop_set_of_lt _ _ _ _ (by omega),
          getD_set_ne _ _ _ _ _ (by omega), getD_set_self _ _ _ _ hol, hdrop]
        rw [runAccum, if_neg hk, if_pos hz]
      · -- data changed, non-zero accumulation: commit, bump offset, swap
        have hstep : csLoopAux (fuel + 1) l o i
            = csLoopAux fuel
                ((l.set (o + 1) (l.getD i (default, 0))).set i (l.getD (o + 1) (default, 0)))
                (o + 1) (i + 1) := by
          simp only [csLoopAux, if_neg hk, hz, ne_eq, not_false_eq_true, if_pos, ite_true]
        rw [hstep, ih _ (o + 1) (i + 1) (by omega) (by simp [List.length_set]; omega)]
        have htake : ((l.set (o + 1) (l.getD i (default, 0))).set i
            (l.getD (o + 1) (default, 0))).take (o + 1) = l.take (o + 1) := by
          rw [take_set_of_le _ _ _ _ (by omega), take_set_of_le _ _ _ _ (le_refl (o + 1))]
        have hgd : ((l.set (o + 1) (l.getD i (default, 0))).set i
            (l.getD (o + 1) (default, 0))).getD (o + 1) (default, 0)
              = l.getD i (default, 0) := by
          by_cases hio : i = o + 1
          · subst hio
            rw [getD_set_self _ _ _ _ (by simp [List.length_set]; omega)]
          · rw [getD_set_ne _ _ _ _ _ hio,
              getD_set_self _ _ _ _ (by omega : o + 1 < l.length)]
        have hdrop2 : ((l.set (o + 1) (l.getD i (default, 0))).set i
            (l.getD (o + 1) (default, 0))).drop (i + 1) = l.drop (i + 1) := by
          rw [drop_set_of_lt _ _ _ _ (by omega), drop_set_of_lt _ _ _ _ (by omega)]
        rw [htake, hgd, hdrop2, hdrop, runAccum, if_neg hk, if_neg hz]
        rw [List.take_succ, List.getElem?_eq_getElem hol, List.append_assoc]
        simp only [Option.toList_some, Option.getD_some, List.singleton_append]
        rw [getD_eq_getElem l o (default, 0) hol]
        rfl

theorem consolidate_slice_take {T : Type} [LinearOrder T] [Inhabited T] (l : List (T × Int)) :
    (consolidate_slice l).1.take (consolidate_slice l).2 = consolidatedSpec l := by
  unfold consolidate_slice consolidatedSpec
  cases hs : sortByFst l with
  | nil =>
    simp [csLoopAux, selectValid]
  | cons p rest =>
    have hspec := csLoopAux_spec rest.length (p :: rest) 0 1 (by omega)
      (by simp [Nat.add_comm])
    simp only [List.length_cons, Nat.add_sub_cancel]
    have hfin : ∀ r : List (T × Int) × Nat,
        r.1.take (if r.2 < r.1.length ∧ (r.1.getD r.2 (default, 0)).2 ≠ 0
          then r.2 + 1 else r.2) = selectValid r := by
      intro r
      unfold selectValid
      split
      · rfl
      · rfl
    rw [hfin, hspec]
    rfl

theorem consolidate_eq_spec {T : Type} [LinearOrder T] [Inhabited T] (l : List (T × Int)) :
    consolidate l = consolidatedSpec l := by
  unfold consolidate consolidate_from
  simp only [List.drop_zero, List.take_zero, List.nil_append, Nat.zero_add]
  exact consolidate_slice_take l

theorem runAccum_nonzero {T : Type} [DecidableEq T] :
    ∀ (rest : List (T × Int)) (acc p : T × Int), p ∈ runAccum acc rest → p.2 ≠ 0 := by
  intro rest
  induction rest with
  | nil =>
    intro acc p hp
    unfold runAccum at hp
    by_cases hz : acc.2 = 0
    · rw [if_pos hz] at hp
      simp at hp
    · rw [if_neg hz] at hp
      simp at hp
      rw [hp]
      exact hz
  | cons q rest ih =>
    intro acc p hp
    unfold runAccum at hp
    by_cases hk : acc.1 = q.1
    · rw [if_pos hk] at hp
      exact ih _ p hp
    · rw [if_neg hk] at hp
      by_cases hz : acc.2 = 0
      · rw [if_pos hz] at hp
        exact ih _ p hp
      · rw [if_neg hz] at hp
        rcases List.mem_cons.mp hp with h | h
        · rw [h]; exact hz
        · exact ih _ p h

theorem keyWeight_cons {T : Type} [DecidableEq T] (t : T) (p : T × Int) (l : List (T × Int)) :
    keyWeight t (p :: l) = (if p.1 = t then p.2 else 0) + keyWeight t l := by
  simp [keyWeight]

theorem runAccum_keyWeight {T : Type} [DecidableEq T] :
    ∀ (rest : List (T × Int)) (acc : T × Int) (t : T),
      keyWeight t (runAccum acc rest) = keyWeight t (acc :: rest) := by
  intro rest
  induction rest with
  | nil =>
    intro acc t
    unfold runAccum
    by_cases hz : acc.2 = 0
    · rw [if_pos hz]
      simp [keyWeight, hz]
    · rw [if_neg hz]
  | cons q rest ih =>
    intro acc t
    unfold runAccum
    by_cases hk : acc.1 = q.1
    · rw [if_pos hk, ih]
      simp only [keyWeight_cons, hk]
      by_cases hqt : q.1 = t
      · simp only [if_pos hqt]
        ring
      · simp only [if_neg hqt]
        ring
    · rw [if_neg hk]
      by_cases hz : acc.2 = 0
      · rw [if_pos hz, ih q t, keyWeight_cons t acc (q :: rest), hz]
        simp
      · rw [if_neg hz, keyWeight_cons t acc (runAccum q rest), ih q t,
          keyWeight_cons t acc (q :: rest)]

theorem runAccum_sorted {T : Type} [LinearOrder T] :
    ∀ (rest : List (T × Int)) (acc : T × Int),
      rest.Pairwise (fun p q => p.1 ≤ q.1) → (∀ p ∈ rest, acc.1 ≤ p.1) →
      (runAccum acc rest).Pairwise (fun p q => p.1 < q.1)
        ∧ ∀ p ∈ runAccum acc rest, acc.1 ≤ p.1 := by
  intro rest
  induction rest with
  | nil =>
    intro acc _ _
    unfold runAccum
    by_cases hz : acc.2 = 0
    · rw [if_pos hz]
      exact ⟨List.Pairwise.nil, by simp⟩
    · rw [if_neg hz]
      constructor
      · exact List.pairwise_singleton _ _
      · intro p hp
        simp at hp
        rw [hp]
  | cons q rest ih =>
    intro acc hs hlb
    have hsq := List.pairwise_cons.mp hs
    have haq : acc.1 ≤ q.1 := hlb q (List.mem_cons_self q rest)
    unfold runAccum
    by_cases hk : acc.1 = q.1
    · rw [if_pos hk]
      have := ih (acc.1, acc.2 + q.2) hsq.2 (fun p hp => hk ▸ hsq.1 p hp)
      exact this
    · rw [if_neg hk]
      have halt : acc.1 < q.1 := lt_of_le_of_ne haq hk
      have hrec := ih q hsq.2 (fun p hp => hsq.1 p hp)
      by_cases hz : acc.2 = 0
      · rw [if_pos hz]
        exact ⟨hrec.1, fun p hp => le_trans (le_of_lt halt) (hrec.2 p hp)⟩
      · rw [if_neg hz]
        constructor
        · exact List.Pairwise.cons (fun p hp => lt_of_lt_of_le halt (hrec.2 p hp)) hrec.1
        · intro p hp
          rcases List.mem_cons.mp hp with h | h
          · rw [h]
          · exact le_trans (le_of_lt halt) (hrec.2 p h)

instance instIsTotalFstLe {T : Type} [LinearOrder T] :
    IsTotal (T × Int) (fun p q => p.1 ≤ q.1) :=
  ⟨fun a b => le_total a.1 b.1⟩

instance instIsTransFstLe {T : Type} [LinearOrder T] :
    IsTrans (T × Int) (fun p q => p.1 ≤ q.1) :=
  ⟨fun _ _ _ h h2 => le_trans h h2⟩

theorem sortByFst_sorted {T : Type} [LinearOrder T] (l : List (T × Int)) :
    (sortByFst l).Pairwise (fun p q => p.1 ≤ q.1) :=
  List.sorted_insertionSort _ l

theorem sortByFst_perm {T : Type} [LinearOrder T] (l : List (T × Int)) :
    (sortByFst l).Perm l :=
  List.perm_insertionSort _ l

theorem keyWeight_perm {T : Type} [DecidableEq T] {l1 l2 : List (T × Int)}
    (h : l1.Perm l2) (t : T) : keyWeight t l1 = keyWeight t l2 :=
  (h.map _).sum_eq

theorem consolidate_sorted {T : Type} [LinearOrder T] [Inhabited T] (l : List (T × Int)) :
    (consolidate l).Pairwise (fun p q => p.1 < q.1) := by
  rw [consolidate_eq_spec]
  unfold consolidatedSpec
  cases hs : sortByFst l with
  | nil => exact List.Pairwise.nil
  | cons p rest =>
    have hsorted := sortByFst_sorted l
    rw [hs] at hsorted
    have hps := List.pairwise_cons.mp hsorted
    exact (runAccum_sorted rest p hps.2 hps.1).1

theorem consolidate_nonzero {T : Type} [LinearOrder T] [Inhabited T] (l : List (T × Int)) :
    ∀ p ∈ consolidate l, p.2 ≠ 0 := by
  rw [consolidate_eq_spec]
  unfold consolidatedSpec
  cases hs : sortByFst l with
  | nil => simp
  | cons p rest => exact fun q hq => runAccum_nonzero rest p q hq

theorem consolidate_keyWeight {T : Type} [LinearOrder T] [Inhabited T]
    (l : List (T × Int)) (t : T) : keyWeight t (consolidate l) = keyWeight t l := by
  rw [consolidate_eq_spec]
  unfold consolidatedSpec
  cases hs : sortByFst l with
  | nil =>
    have : l = [] := by
      have := sortByFst_perm l
      rw [hs] at this
      exact this.symm.eq_nil
    rw [this]
  | cons p rest =>
    rw [runAccum_keyWeight rest p t]
    have := sortByFst_perm l
    rw [hs] at this
    exact keyWeight_perm this t

/-- C1: consolidation (consolidate / consolidate_slice) produces a sequence
strictly sorted by the data component (for batches the data is the (key, val)
pair, ordered lexicographically), containing no zero weights, in which each
data value carries exactly the sum of its weights in the input; in particular,
encoding the keys a < b as 0 < 1, input [(a,-1),(b,-2),(a,1)] consolidates to
[(b,-2)] and input [(a,-1),(b,0),(a,1)] consolidates to []. -/
theorem consolidate_canonical_form :
    (∀ (T : Type) [LinearOrder T] [Inhabited T] (l : List (T × Int)),
      (consolidate l).Pairwise (fun p q => p.1 < q.1)
        ∧ (∀ p ∈ consolidate l, p.2 ≠ 0)
        ∧ ∀ t, keyWeight t (consolidate l) = keyWeight t l)
    ∧ consolidate [((0 : Nat), (-1 : Int)), (1, -2), (0, 1)] = [(1, -2)]
    ∧ consolidate [((0 : Nat), (-1 : Int)), (1, 0), (0, 1)] = [] := by
  refine ⟨fun T _ _ l =>
    ⟨consolidate_sorted l, consolidate_nonzero l, fun t => consolidate_keyWeight l t⟩,
    by decide, by decide⟩

/-- C10: for every offset ≤ vec.length, consolidate_from leaves the elements
vec[0..offset] unchanged: the result is exactly the untouched prefix followed
by the consolidation of the original suffix. -/
theorem consolidate_from_frame {T : Type} [LinearOrder T] [Inhabited T]
    (vec : List (T × Int)) (offset : Nat) (h : offset ≤ vec.length) :
    consolidate_from vec offset = vec.take offset ++ consolidate (vec.drop offset) := by
  unfold consolidate consolidate_from
  simp only [List.drop_zero, List.take_zero, List.nil_append, Nat.zero_add]
  have hlen : (vec.take offset).length = offset := by
    rw [List.length_take]
    omega
  calc (vec.take offset ++ (consolidate_slice (vec.drop offset)).1).take
          (offset + (consolidate_slice (vec.drop offset)).2)
      = (vec.take offset ++ (consolidate_slice (vec.drop offset)).1).take
          ((vec.take offset).length + (consolidate_slice (vec.drop offset)).2) := by
        rw [hlen]
    _ = vec.take offset ++ (consolidate_slice (vec.drop offset)).1.take
          (consolidate_slice (vec.drop offset)).2 := List.take_append _

/-- Witness for consolidate_from_frame: a concrete vector and offset 1. -/
theorem consolidate_from_frame_witness :
    1 ≤ ([((5 : Nat), (7 : Int)), (0, -1), (1, -2), (0, 1)] : List (Nat × Int)).length
    ∧ consolidate_from [((5 : Nat), (7 : Int)), (0, -1), (1, -2), (0, 1)] 1
      = ([((5 : Nat), (7 : Int)), (0, -1), (1, -2), (0, 1)] : List (Nat × Int)).take 1
        ++ consolidate (([((5 : Nat), (7 : Int)), (0, -1), (1, -2), (0, 1)] :
            List (Nat × Int)).drop 1) :=
  ⟨by decide, consolidate_from_frame [((5 : Nat), (7 : Int)), (0, -1), (1, -2), (0, 1)] 1
    (by decide)⟩

/-! ## Checked integer weights (algebra/checked_int.rs)

CheckedInt<T> delegates each operation to the non-wrapping checked variant of
the underlying integer type and fails ("intentional panic on overflow") when
that variant reports overflow.  The model instantiates T at i64: values are
integers in [-2^63, 2^63 - 1], checked_add / checked_neg / checked_mul return
none exactly when the mathematical result leaves that range, and the panic is
modelled as an Except error of kind Overflow.  add, add_by_ref, add_assign and
add_assign_by_ref all compute the same checked sum in the source, so a single
add model covers them; similarly neg / neg_by_ref. -/

def i64Min : Int := -(2 ^ 63)

def i64Max : Int := 2 ^ 63 - 1

/-- Membership in the representable range of i64. -/
def inI64Range (x : Int) : Prop := i64Min ≤ x ∧ x ≤ i64Max

instance (x : Int) : Decidable (inI64Range x) := by
  unfold inI64Range
  infer_instance

/-- i64::checked_add. -/
def checked_add (a b : Int) : Option Int :=
  if inI64Range (a + b) then some (a + b) else none

/-- i64::checked_neg. -/
def checked_neg (a : Int) : Option Int :=
  if inI64Range (-a) then some (-a) else none

/-- i64::checked_mul. -/
def checked_mul (a b : Int) : Option Int :=
  if inI64Range (a * b) then some (a * b) else none

/-- Failure kinds surfaced by the engine (section 7 of the spec): a checked
weight operation that would wrap fails with Overflow. -/
inductive ErrKind where
  | Overflow
  | Killed
deriving DecidableEq, Repr

/-- CheckedInt<i64>: a newtype around the machine integer value. -/
structure CheckedI64 where
  value : Int
deriving DecidableEq, Repr

/-- CheckedInt add (also add_by_ref / add_assign / add_assign_by_ref):
checked_add, with the overflow panic modelled as an Overflow error. -/
def CheckedI64.add (a b : CheckedI64) : Except ErrKind CheckedI64 :=
  match checked_add a.value b.value with
  | some v => Except.ok ⟨v⟩
  | none => Except.error ErrKind.Overflow

/-- CheckedInt neg (also neg_by_ref). -/
def CheckedI64.neg (a : CheckedI64) : Except ErrKind CheckedI64 :=
  match checked_neg a.value with
  | some v => Except.ok ⟨v⟩
  | none => Except.error ErrKind.Overflow

/-- CheckedInt mul_by_ref. -/
def CheckedI64.mul (a b : CheckedI64) : Except ErrKind CheckedI64 :=
  match checked_mul a.value b.value with
  | some v => Except.ok ⟨v⟩
  | none => Except.error ErrKind.Overflow

/-- i64::MAX as a checked integer. -/
def CheckedI64.MAX : CheckedI64 := ⟨i64Max⟩

/-- C3: each checked weight operation (addition, negation, multiplication)
returns the plain integer result when the underlying operation does not
overflow, and fails with kind Overflow when it would; in particular
CheckedI64.MAX + CheckedI64(1) fails with Overflow. -/
theorem checked_int_overflow :
    (∀ a b : CheckedI64,
      (inI64Range (a.value + b.value) →
        CheckedI64.add a b = Except.ok ⟨a.value + b.value⟩)
      ∧ (¬ inI64Range (a.value + b.value) →
        CheckedI64.add a b = Except.error ErrKind.Overflow))
    ∧ (∀ a : CheckedI64,
      (inI64Range (-a.value) → CheckedI64.neg a = Except.ok ⟨-a.value⟩)
      ∧ (¬ inI64Range (-a.value) → CheckedI64.neg a = Except.error ErrKind.Overflow))
    ∧ (∀ a b : CheckedI64,
      (inI64Range (a.value * b.value) →
        CheckedI64.mul a b = Except.ok ⟨a.value * b.value⟩)
      ∧ (¬ inI64Range (a.value * b.value) →
        CheckedI64.mul a b = Except.error ErrKind.Overflow))
    ∧ CheckedI64.add CheckedI64.MAX ⟨1⟩ = Except.error ErrKind.Overflow := by
  refine ⟨fun a b => ⟨fun h => ?_, fun h => ?_⟩,
    fun a => ⟨fun h => ?_, fun h => ?_⟩,
    fun a b => ⟨fun h => ?_, fun h => ?_⟩, by rfl⟩
  · rw [CheckedI64.add, checked_add, if_pos h]
  · rw [CheckedI64.add, checked_add, if_neg h]
  · rw [CheckedI64.neg, checked_neg, if_pos h]
  · rw [CheckedI64.neg, checked_neg, if_neg h]
  · rw [CheckedI64.mul, checked_mul, if_pos h]
  · rw [CheckedI64.mul, checked_mul, if_neg h]

/-! ## Product timestamps (time/product.rs)

Product<TOuter, TInner> implements the Timestamp trait; advance(0) delegates
to inner.advance(0), advance(k) for k > 0 delegates to outer.advance(k - 1)
and resets inner to TInner::minimum(); recede(0) delegates to inner.recede(0),
recede(k) for k > 0 delegates to outer.recede(k - 1) and keeps inner
unchanged.  The base Timestamp instances for scalar clocks are not part of the
analysed sources; the scalar model below is modelled from the spec: a scalar
clock advances by incrementing and recedes by decrementing, with minimum 0. -/

/-- The Timestamp operations a component must provide (advance, recede,
minimum), with the scope argument threaded through as in the source. -/
class TimestampModel (α : Type) where
  minimum : α
  advance : α → Nat → α
  recede : α → Nat → α

/-- Modelled from the spec: the missing scalar base Timestamp instance
(integer clocks such as u32).  "advance(scope) increments the appropriate
component"; a scalar clock has only itself to increment, and recede is its
inverse decrement; minimum is 0. -/
instance : TimestampModel Nat where
  minimum := 0
  advance t _ := t + 1
  recede t _ := t - 1

/-- A nested pair of timestamps, one outer and one inner. -/
structure Product (TOuter TInner : Type) where
  outer : TOuter
  inner : TInner
deriving DecidableEq, Repr

/-- Product::advance. -/
def Product.advance {O I : Type} [TimestampModel O] [TimestampModel I]
    (t : Product O I) (scope : Nat) : Product O I :=
  if scope = 0 then
    ⟨t.outer, TimestampModel.advance t.inner 0⟩
  else
    ⟨TimestampModel.advance t.outer (scope - 1), TimestampModel.minimum⟩

/-- Product::recede. -/
def Product.recede {O I : Type} [TimestampModel O] [TimestampModel I]
    (t : Product O I) (scope : Nat) : Product O I :=
  if scope = 0 then
    ⟨t.outer, TimestampModel.recede t.inner 0⟩
  else
    ⟨TimestampModel.recede t.outer (scope - 1), t.inner⟩

/-- C6 counterexample: recede is not the inverse of advance at scopes above 0.
At t = (outer 0, inner 5) and scope 1, advance resets the inner component to
its minimum and recede leaves the inner component unchanged, so the round trip
returns (0, 0), not t. -/
theorem product_recede_advance_counterexample :
    Product.recede (Product.advance (⟨0, 5⟩ : Product Nat Nat) 1) 1 ≠ ⟨0, 5⟩ := by
  decide

/-- C6 (amended): advance(0) increments the inner component leaving the outer
unchanged; advance(k) for k > 0 advances the outer component at scope k - 1
and resets the inner component to its minimum; recede inverts advance at scope
0, while for k > 0 the round trip recede(advance(t, k), k) yields
(t.outer, minimum), which equals t only when t.inner is already minimal. -/
theorem product_advance_recede {O : Type} [TimestampModel O]
    (t : Product O Nat) (k : Nat)
    (hrec : TimestampModel.recede (TimestampModel.advance t.outer (k - 1)) (k - 1)
      = t.outer) :
    Product.advance t 0 = ⟨t.outer, t.inner + 1⟩
    ∧ (0 < k → Product.advance t k
        = ⟨TimestampModel.advance t.outer (k - 1), 0⟩)
    ∧ Product.recede (Product.advance t 0) 0 = t
    ∧ (0 < k → Product.recede (Product.advance t k) k
        = ⟨t.outer, (0 : Nat)⟩) := by
  refine ⟨rfl, fun hk => ?_, ?_, fun hk => ?_⟩
  · rw [Product.advance, if_neg (by omega)]
    rfl
  · rw [Product.advance, Product.recede, if_pos rfl, if_pos rfl]
    show Product.mk t.outer (t.inner + 1 - 1) = t
    rw [Nat.add_sub_cancel]
  · rw [Product.advance, if_neg (by omega), Product.recede, if_neg (by omega)]
    show Product.mk (TimestampModel.recede (TimestampModel.advance t.outer (k - 1)) (k - 1))
      (0 : Nat) = _
    rw [hrec]

/-- Witness for product_advance_recede: outer and inner scalar clocks,
t = (2, 5), scope 1. -/
theorem product_advance_recede_witness :
    Product.advance (⟨2, 5⟩ : Product Nat Nat) 0 = ⟨2, 6⟩
    ∧ Product.advance (⟨2, 5⟩ : Product Nat Nat) 1 = ⟨3, 0⟩
    ∧ Product.recede (Product.advance (⟨2, 5⟩ : Product Nat Nat) 0) 0 = ⟨2, 5⟩
    ∧ Product.recede (Product.advance (⟨2, 5⟩ : Product Nat Nat) 1) 1 = ⟨2, 0⟩ := by
  have h := product_advance_recede (⟨2, 5⟩ : Product Nat Nat) 1 (by decide)
  exact ⟨h.1, h.2.1 (by decide), h.2.2.1, h.2.2.2 (by decide)⟩

/-! ## Runtime sequence counters (circuit/runtime.rs)

Runtime::sequence_next(worker_index) looks up the entry keyed by
WorkerId(worker_index) in the shared local store, inserting 0 if absent,
returns the current value and increments the stored value.  The store is
modelled as a total function from worker index to counter (absent = 0, the
or_insert default); one call returns the current counter and writes back its
successor.  A sequence of calls is replayed left to right, which models any
interleaving of the workers' calls, since the per-entry lock makes each call
atomic. -/

/-- Runtime::sequence_next as a state transformer on the store. -/
def sequence_next (store : Nat → Nat) (worker_index : Nat) : Nat × (Nat → Nat) :=
  (store worker_index,
    fun x => if x = worker_index then store worker_index + 1 else store x)

/-- Replay a list of sequence_next calls (identified by worker index) against
a store, collecting the returned values in order. -/
def runSeq : List Nat → (Nat → Nat) → List Nat
  | [], _ => []
  | w :: ws, store =>
    (sequence_next store w).1 :: runSeq ws (sequence_next store w).2

theorem runSeq_length (calls : List Nat) (store : Nat → Nat) :
    (runSeq calls store).length = calls.length := by
  induction calls generalizing store with
  | nil => rfl
  | cons w ws ih => simp [runSeq, ih]

theorem runSeq_get (calls : List Nat) (store : Nat → Nat) (i : Nat)
    (h : i < calls.length) :
    (runSeq calls store).get ⟨i, by rw [runSeq_length]; exact h⟩
      = store (calls.get ⟨i, h⟩) + (calls.take i).count (calls.get ⟨i, h⟩) := by
  induction calls generalizing store i with
  | nil => exact absurd h (by simp)
  | cons w ws ih =>
    cases i with
    | zero => simp [runSeq, sequence_next]
    | succ i =>
      have hi : i < ws.length := by simpa using h
      have hrec := ih (sequence_next store w).2 i hi
      show (runSeq ws (sequence_next store w).2).get ⟨i, _⟩ = _
      rw [hrec]
      simp only [sequence_next, List.get_cons_succ, List.take_succ_cons,
        List.count_cons, beq_iff_eq]
      by_cases hw : ws.get ⟨i, hi⟩ = w
      · rw [if_pos hw, if_pos hw.symm, hw]
        omega
      · rw [if_neg hw, if_neg (fun hh => hw hh.symm)]
        omega

/-- C8: replaying any interleaving of sequence_next calls from the initial
(empty) store, the call at position i for worker index w returns exactly the
number of earlier calls for the same worker index — each worker index w
observes the values 0, 1, 2, ... in order, independently of all other worker
indices, so every worker asking for the same ordinal of its own index
observes that same ordinal as the value. -/
theorem sequence_next_per_worker (calls : List Nat) (i : Nat) (h : i < calls.length) :
    (runSeq calls (fun _ => 0)).get ⟨i, by rw [runSeq_length]; exact h⟩
      = (calls.take i).count (calls.get ⟨i, h⟩) := by
  rw [runSeq_get calls (fun _ => 0) i h]
  omega

/-- Witness for sequence_next_per_worker: in the interleaving
[0, 1, 0, 0, 1], the call at position 3 is worker 0's third call and
returns 2. -/
theorem sequence_next_per_worker_witness :
    (3 < ([0, 1, 0, 0, 1] : List Nat).length)
    ∧ (runSeq [0, 1, 0, 0, 1] (fun _ => 0)).get
        ⟨3, by rw [runSeq_length]; decide⟩
      = (([0, 1, 0, 0, 1] : List Nat).take 3).count
          (([0, 1, 0, 0, 1] : List Nat).get ⟨3, by decide⟩) :=
  ⟨by decide, sequence_next_per_worker [0, 1, 0, 0, 1] 3 (by decide)⟩

/-! ## Finite maps with group values (algebra/finite_map/mod.rs)

FiniteHashMap<Key, Value> wraps a hash map and documents the invariant that
exactly the keys with non-zero values are present.  The hash map is modelled
as an association list of (key, value) entries; the Occupied / Vacant entry
branches become a lookup followed by an in-place value update, an entry
removal, or an insertion of a fresh entry.  Values live in an additive
commutative group (GroupValue), keys only need decidable equality. -/

section FiniteMap

variable {K V : Type} [DecidableEq K] [AddCommGroup V] [DecidableEq V]

/-- HashMap::get on the association list. -/
def mapLookup (m : List (K × V)) (k : K) : Option V :=
  (m.find? (fun p => decide (p.1 = k))).map (fun p => p.2)

/-- Overwrite the value stored under an occupied key. -/
def mapSet (m : List (K × V)) (k : K) (v : V) : List (K × V) :=
  m.map (fun p => if p.1 = k then (k, v) else p)

/-- Remove the entry of an occupied key. -/
def mapErase (m : List (K × V)) (k : K) : List (K × V) :=
  m.filter (fun p => decide (¬ p.1 = k))

/-- MapBuilder::increment for FiniteHashMap (increment_owned performs the same
steps through the owned entry API): a zero value is ignored; a vacant key is
inserted; an occupied key has the value added in place and the entry is
removed when the sum is zero. -/
def increment (m : List (K × V)) (k : K) (v : V) : List (K × V) :=
  if v = 0 then m
  else
    match mapLookup m k with
    | none => (k, v) :: m
    | some w => if w + v = 0 then mapErase m k else mapSet m k (w + v)

/-- FiniteMap::update for FiniteHashMap: an occupied value is passed to f and
the entry is removed if the result is zero; on a vacant key f is applied to
zero and the result is inserted only when non-zero. -/
def update (m : List (K × V)) (k : K) (f : V → V) : List (K × V) :=
  match mapLookup m k with
  | some w => if f w = 0 then mapErase m k else mapSet m k (f w)
  | none => if f 0 = 0 then m else (k, f 0) :: m

/-- FiniteMap::update_owned for FiniteHashMap: as update on an occupied key,
but on a vacant key the result of f is inserted unconditionally — the Vacant
branch of the source performs ve.insert(val) without an is_zero check. -/
def update_owned (m : List (K × V)) (k : K) (f : V → V) : List (K × V) :=
  match mapLookup m k with
  | some w => if f w = 0 then mapErase m k else mapSet m k (f w)
  | none => (k, f 0) :: m

/-- One step of the add_inner / add_assign loop body: fold one entry of the
right-hand map into the left-hand map (no zero check before insertion on a
vacant key). -/
def addEntry (m : List (K × V)) (p : K × V) : List (K × V) :=
  match mapLookup m p.1 with
  | none => (p.1, p.2) :: m
  | some w => if w + p.2 = 0 then mapErase m p.1 else mapSet m p.1 (w + p.2)

/-- Add::add for FiniteHashMap: fold the smaller map into the larger one
(add_assign and the by-ref variants run the same entry loop). -/
def mapAdd (m1 m2 : List (K × V)) : List (K × V) :=
  if m1.length > m2.length then m2.foldl addEntry m1 else m1.foldl addEntry m2

/-- Neg::neg for FiniteHashMap: negate every stored value in place. -/
def mapNeg (m : List (K × V)) : List (K × V) :=
  m.map (fun p => (p.1, -p.2))

/-- The invariant documented on the FiniteHashMap struct: no key present in
the map carries a zero value. -/
def NoZeros (m : List (K × V)) : Prop := ∀ p ∈ m, p.2 ≠ 0

end FiniteMap

/-- C4 (code bug): update_owned violates the no-zero-values invariant.  On a
vacant key the source inserts the value produced by the callback without the
is_zero check that the by-ref update performs, so a callback that leaves the
zero value unchanged makes update_owned insert a zero-valued entry into an
empty map, while update on the same input correctly leaves the map empty. -/
theorem update_owned_inserts_zero :
    update_owned ([] : List (Nat × Int)) 0 (fun v => v) = [(0, 0)]
    ∧ ¬ NoZeros (update_owned ([] : List (Nat × Int)) 0 (fun v => v))
    ∧ update ([] : List (Nat × Int)) 0 (fun v => v) = [] := by
  refine ⟨rfl, fun h => ?_, rfl⟩
  exact h (0, 0) (by rw [show update_owned ([] : List (Nat × Int)) 0 (fun v => v)
    = [(0, 0)] from rfl]; exact List.mem_singleton_self _) rfl

/-! ## Pair cursors (trace/cursor/cursor_pair.rs)

CursorPair merges two cursors over the same schema.  It caches the Ordering
between the two current keys (key_order) together with the iteration direction
(key_direction).  The underlying batch cursor implementations are not part of
the analysed sources; they are modelled from the spec as a position into a
sorted key list, where step moves the position forward, the reverse step moves
it backward, and positions outside the list are invalid.  The model covers the
key dimension of the pair cursor; the val_order / val_direction fields mirror
the same scheme one level down and do not feed back into key navigation. -/

/-- Modelled from the spec: a cursor over a sorted list of keys.  The position
is an integer so that stepping backward off the first key (or forward off the
last) makes the cursor invalid. -/
structure ListCursor (K : Type) where
  keys : List K
  pos : Int
deriving DecidableEq, Repr

/-- Cursor::key_valid for the list cursor: the position is inside the list. -/
def ListCursor.key_valid {K : Type} (c : ListCursor K) : Bool :=
  decide (0 ≤ c.pos ∧ c.pos < c.keys.length)

/-- Cursor::key for the list cursor. -/
def ListCursor.key {K : Type} [Inhabited K] (c : ListCursor K) : K :=
  c.keys.getD c.pos.toNat default

/-- Cursor::step_key for the list cursor: advance the position. -/
def ListCursor.step_key {K : Type} (c : ListCursor K) : ListCursor K :=
  { c with pos := c.pos + 1 }

/-- Cursor::step_key_reverse for the list cursor: move the position back. -/
def ListCursor.step_key_reverse {K : Type} (c : ListCursor K) : ListCursor K :=
  { c with pos := c.pos - 1 }

/-- Cursor::fast_forward_keys for the list cursor: move to the last key. -/
def ListCursor.fast_forward_keys {K : Type} (c : ListCursor K) : ListCursor K :=
  { c with pos := (c.keys.length : Int) - 1 }

/-- Iteration direction of a cursor axis. -/
inductive Direction where
  | Forward
  | Backward
deriving DecidableEq, Repr

/-- The key-level state of CursorPair: the two wrapped cursors, the cached
Ordering of their current keys, and the key direction. -/
structure CursorPair (K : Type) where
  cursor1 : ListCursor K
  cursor2 : ListCursor K
  key_order : Ordering
  key_direction : Direction
deriving DecidableEq, Repr

variable {K : Type} [LinearOrder K] [Inhabited K]

/-- CursorPair::update_key_order_forward: an invalid cursor compares Greater;
two valid cursors compare by key. -/
def CursorPair.update_key_order_forward (s : CursorPair K) : CursorPair K :=
  { s with key_order :=
      if ¬ s.cursor1.key_valid then Ordering.gt
      else if ¬ s.cursor2.key_valid then Ordering.lt
      else compare s.cursor1.key s.cursor2.key }

/-- CursorPair::update_key_order_reverse: an invalid cursor compares Less;
two valid cursors compare by key. -/
def CursorPair.update_key_order_reverse (s : CursorPair K) : CursorPair K :=
  { s with key_order :=
      if ¬ s.cursor1.key_valid then Ordering.lt
      else if ¬ s.cursor2.key_valid then Ordering.gt
      else compare s.cursor1.key s.cursor2.key }

/-- CursorPair::new: forward direction, with the key order computed as in the
forward update. -/
def CursorPair.new (c1 c2 : ListCursor K) : CursorPair K :=
  CursorPair.update_key_order_forward ⟨c1, c2, Ordering.eq, Direction.Forward⟩

/-- CursorPair::current_key1: cursor 1 holds the current key alone. -/
def CursorPair.current_key1 (s : CursorPair K) : Bool :=
  decide ((s.key_direction = Direction.Forward ∧ s.key_order = Ordering.lt)
    ∨ (s.key_direction = Direction.Backward ∧ s.key_order = Ordering.gt))

/-- CursorPair::current_key2: cursor 2 holds the current key alone. -/
def CursorPair.current_key2 (s : CursorPair K) : Bool :=
  decide ((s.key_direction = Direction.Forward ∧ s.key_order = Ordering.gt)
    ∨ (s.key_direction = Direction.Backward ∧ s.key_order = Ordering.lt))

/-- CursorPair::key_valid. -/
def CursorPair.key_valid (s : CursorPair K) : Bool :=
  if s.current_key1 then s.cursor1.key_valid
  else if s.current_key2 then s.cursor2.key_valid
  else true

/-- CursorPair::step_key (forward): step whichever cursors are not Greater
(equal or lagging in the forward direction), then recompute the forward
order. -/
def CursorPair.step_key (s : CursorPair K) : CursorPair K :=
  CursorPair.update_key_order_forward
    { s with
      cursor1 := if s.key_order ≠ Ordering.gt then s.cursor1.step_key else s.cursor1,
      cursor2 := if s.key_order ≠ Ordering.lt then s.cursor2.step_key else s.cursor2 }

/-- CursorPair::step_key_reverse as written in the source: the cursors that
are not Less (equal or lagging in the backward direction) are stepped with the
childrens' FORWARD step_key — not step_key_reverse — and the backward order is
recomputed. -/
def CursorPair.step_key_reverse (s : CursorPair K) : CursorPair K :=
  CursorPair.update_key_order_reverse
    { s with
      cursor1 := if s.key_order ≠ Ordering.lt then s.cursor1.step_key else s.cursor1,
      cursor2 := if s.key_order ≠ Ordering.gt then s.cursor2.step_key else s.cursor2 }

/-- CursorPair::fast_forward_keys: fast-forward both cursors, switch to the
backward direction, recompute the backward order. -/
def CursorPair.fast_forward_keys (s : CursorPair K) : CursorPair K :=
  CursorPair.update_key_order_reverse
    { s with
      cursor1 := s.cursor1.fast_forward_keys,
      cursor2 := s.cursor2.fast_forward_keys,
      key_direction := Direction.Backward }

/-- C5 (code bug): with both wrapped cursors over the keys [0, 1] positioned
on the last key by fast_forward_keys (position 1, key order Equal, backward
direction), step_key_reverse runs the wrapped cursors FORWARD past the end
(both positions become 2) instead of stepping them backward to position 0, so
the merged cursor reports key_valid = false even though key 0 has not been
visited; stepping the children backward, as the claim describes, would leave
them on position 0. -/
theorem step_key_reverse_steps_children_forward :
    (CursorPair.fast_forward_keys
        (CursorPair.new (⟨[0, 1], 0⟩ : ListCursor Nat) ⟨[0, 1], 0⟩)).cursor1.pos = 1
    ∧ (CursorPair.fast_forward_keys
        (CursorPair.new (⟨[0, 1], 0⟩ : ListCursor Nat) ⟨[0, 1], 0⟩)).key_order
      = Ordering.eq
    ∧ (CursorPair.step_key_reverse (CursorPair.fast_forward_keys
        (CursorPair.new (⟨[0, 1], 0⟩ : ListCursor Nat) ⟨[0, 1], 0⟩))).cursor1.pos = 2
    ∧ (CursorPair.step_key_reverse (CursorPair.fast_forward_keys
        (CursorPair.new (⟨[0, 1], 0⟩ : ListCursor Nat) ⟨[0, 1], 0⟩))).cursor2.pos = 2
    ∧ (CursorPair.step_key_reverse (CursorPair.fast_forward_keys
        (CursorPair.new (⟨[0, 1], 0⟩ : ListCursor Nat) ⟨[0, 1], 0⟩))).key_valid = false
    ∧ ((CursorPair.fast_forward_keys
        (CursorPair.new (⟨[0, 1], 0⟩ : ListCursor Nat)
          ⟨[0, 1], 0⟩)).cursor1.step_key_reverse).pos = 0 := by
  decide

/-! ## Group transform, Ascending arm (operator/group/mod.rs)

In the Ascending arm of DiffGroupTransformer::transform, every output key v
produced by the wrapped non-incremental transformer first retracts all output
trace keys that are ≤ v and still under the trace cursor (each with the
negation of its trace weight) and is then emitted itself; after the
transformer finishes, the remaining trace keys are all retracted.  The model
abstracts the wrapped transformer by the ordered list of (value, weight)
pairs it emits for the group, and the output-trace group cursor by the sorted
list of (value, weight) pairs it ranges over; the while loop over the trace
cursor becomes takeWhile / dropWhile. -/

/-- The Ascending arm of DiffGroupTransformer::transform for one group:
emissions are processed in order; each emission (v, w) first retracts the
trace entries with key ≤ v, then appends (v, w); the trailing loop retracts
whatever is left of the trace. -/
def ascTransform {O : Type} [LinearOrder O] :
    List (O × Int) → List (O × Int) → List (O × Int)
  | [], trace => trace.map (fun p => (p.1, -p.2))
  | (v, w) :: rest, trace =>
    (trace.takeWhile (fun p => decide (p.1 ≤ v))).map (fun p => (p.1, -p.2))
      ++ (v, w) :: ascTransform rest (trace.dropWhile (fun p => decide (p.1 ≤ v)))

theorem keyWeight_append {T : Type} [DecidableEq T] (x : T) (a b : List (T × Int)) :
    keyWeight x (a ++ b) = keyWeight x a + keyWeight x b := by
  simp [keyWeight]

theorem keyWeight_neg_map {T : Type} [DecidableEq T] (x : T) (l : List (T × Int)) :
    keyWeight x (l.map (fun p => (p.1, -p.2))) = -keyWeight x l := by
  induction l with
  | nil => rfl
  | cons p l ih =>
    rw [List.map_cons, keyWeight_cons, keyWeight_cons, ih]
    by_cases hp : p.1 = x
    · rw [if_pos hp, if_pos hp]
      ring
    · rw [if_neg hp, if_neg hp]
      ring

/-- Net weight of the Ascending arm: every trace entry is retracted exactly
once (whether or not its key is re-emitted), so the output is a full
replacement at the weight level. -/
theorem ascTransform_keyWeight {O : Type} [LinearOrder O] :
    ∀ (e trace : List (O × Int)) (x : O),
      keyWeight x (ascTransform e trace) = keyWeight x e - keyWeight x trace := by
  intro e
  induction e with
  | nil =>
    intro trace x
    show keyWeight x (trace.map (fun p => (p.1, -p.2))) = _
    rw [keyWeight_neg_map]
    show _ = keyWeight x [] - keyWeight x trace
    rw [show keyWeight x ([] : List (O × Int)) = 0 from rfl]
    ring
  | cons vw rest ih =>
    intro trace x
    obtain ⟨v, w⟩ := vw
    show keyWeight x
        ((trace.takeWhile (fun p => decide (p.1 ≤ v))).map (fun p => (p.1, -p.2))
          ++ (v, w) :: ascTransform rest (trace.dropWhile (fun p => decide (p.1 ≤ v)))) = _
    rw [keyWeight_append, keyWeight_neg_map, keyWeight_cons, ih, keyWeight_cons]
    have hsplit := congrArg (keyWeight x)
      (List.takeWhile_append_dropWhile (fun p => decide (p.1 ≤ v)) trace)
    rw [keyWeight_append] at hsplit
    linarith [hsplit]

/-- Keys dropped by the trace loop of one emission lie strictly above the
emitted key, provided the trace is sorted. -/
theorem dropWhile_gt_key {O : Type} [LinearOrder O] (v : O) :
    ∀ (trace : List (O × Int)), trace.Pairwise (fun p q => p.1 ≤ q.1) →
      ∀ p ∈ trace.dropWhile (fun p => decide (p.1 ≤ v)), v < p.1 := by
  intro trace
  induction trace with
  | nil =>
    intro _ p hp
    simp [List.dropWhile] at hp
  | cons q rest ih =>
    intro hs p hp
    rw [List.dropWhile_cons] at hp
    by_cases hq : q.1 ≤ v
    · rw [if_pos (by simpa using hq)] at hp
      exact ih (List.pairwise_cons.mp hs).2 p hp
    · rw [if_neg (by simpa using hq)] at hp
      rcases List.mem_cons.mp hp with h | h
      · rw [h]
        exact lt_of_not_le hq
      · exact lt_of_lt_of_le (lt_of_not_le hq) ((List.pairwise_cons.mp hs).1 p h)

/-- A lower bound on the emissions and the trace bounds the whole output. -/
theorem ascTransform_lower_bound {O : Type} [LinearOrder O] :
    ∀ (e trace : List (O × Int)) (b : O),
      (∀ p ∈ e, b ≤ p.1) → (∀ p ∈ trace, b ≤ p.1) →
      ∀ p ∈ ascTransform e trace, b ≤ p.1 := by
  intro e
  induction e with
  | nil =>
    intro trace b _ htr p hp
    obtain ⟨q, hq, hqe⟩ := List.mem_map.mp hp
    rw [← hqe]
    exact htr q hq
  | cons vw rest ih =>
    intro trace b he htr p hp
    obtain ⟨v, w⟩ := vw
    rcases List.mem_append.mp hp with h | h
    · obtain ⟨q, hq, hqe⟩ := List.mem_map.mp h
      rw [← hqe]
      exact htr q ((List.takeWhile_sublist _).subset hq)
    · rcases List.mem_cons.mp h with h | h
      · rw [h]
        exact he (v, w) (List.mem_cons_self _ _)
      · exact ih _ b (fun q hq => he q (List.mem_cons_of_mem _ hq))
          (fun q hq => htr q ((List.dropWhile_sublist _).subset hq)) p h

/-- Order of the Ascending arm output: retractions for keys ≤ v come right
before each emitted v, later emissions and later retractions carry larger
keys, so the whole output is sorted by key when the transformer emits in
ascending key order over a sorted output-trace group. -/
theorem ascTransform_sorted {O : Type} [LinearOrder O] :
    ∀ (e trace : List (O × Int)),
      e.Pairwise (fun p q => p.1 ≤ q.1) → trace.Pairwise (fun p q => p.1 ≤ q.1) →
      (ascTransform e trace).Pairwise (fun p q => p.1 ≤ q.1) := by
  intro e
  induction e with
  | nil =>
    intro trace _ htr
    exact List.pairwise_map.mpr (htr.imp (fun h => h))
  | cons vw rest ih =>
    intro trace he htr
    obtain ⟨v, w⟩ := vw
    have hep := List.pairwise_cons.mp he
    show ((trace.takeWhile (fun p => decide (p.1 ≤ v))).map (fun p => (p.1, -p.2))
      ++ (v, w) :: ascTransform rest
          (trace.dropWhile (fun p => decide (p.1 ≤ v)))).Pairwise _
    have hSlower : ∀ p ∈ ascTransform rest (trace.dropWhile (fun p => decide (p.1 ≤ v))),
        v ≤ p.1 := by
      intro p hp
      exact ascTransform_lower_bound rest _ v hep.1
        (fun q hq => le_of_lt (dropWhile_gt_key v trace htr q hq)) p hp
    rw [List.pairwise_append]
    refine ⟨List.pairwise_map.mpr
        ((List.Pairwise.sublist (List.takeWhile_sublist _) htr).imp (fun h => h)),
      List.pairwise_cons.mpr ⟨hSlower,
        ih _ hep.2 (List.Pairwise.sublist (List.dropWhile_sublist _) htr)⟩, ?_⟩
    intro a ha b hb
    obtain ⟨q, hq, hqe⟩ := List.mem_map.mp ha
    have hqv : q.1 ≤ v := by simpa using List.mem_takeWhile_imp hq
    have hav : a.1 ≤ v := by
      rw [← hqe]
      exact hqv
    rcases List.mem_cons.mp hb with h | h
    · rw [h]
      exact hav
    · exact le_trans hav (hSlower b h)

/-- C7 counterexample: the Ascending arm retracts output-trace keys that ARE
re-emitted.  With the transformer emitting (5, 1) and the output trace
containing (5, 1), key 5 is re-emitted yet its retraction (5, -1) is still
produced (right before the emission), contradicting the claim that exactly
the keys not re-emitted are retracted. -/
theorem asc_retracts_reemitted_key :
    ascTransform [((5 : Nat), (1 : Int))] [((5 : Nat), (1 : Int))] = [(5, -1), (5, 1)]
    ∧ ((5 : Nat), (-1 : Int)) ∈ ascTransform [((5 : Nat), (1 : Int))]
        [((5 : Nat), (1 : Int))]
    ∧ (5 : Nat) ∈ ([((5 : Nat), (1 : Int))].map Prod.fst) := by
  decide

/-- C7 (amended): as each new output key v is produced, ALL output-trace keys
≤ v still under the cursor — including v itself when it is re-emitted — are
retracted with the negation of their trace weight before v is emitted, and the
remaining output-trace keys are retracted after the transformer finishes;
consequently (1) the output is a full replacement: its net weight at every key
equals the emitted weight minus the old trace weight, and (2) when the
transformer emits keys in ascending order over a sorted trace group, the whole
output (retractions interleaved with emissions) is ordered by key. -/
theorem asc_transform_replacement :
    (∀ (O : Type) [LinearOrder O] (e trace : List (O × Int)) (x : O),
      keyWeight x (ascTransform e trace) = keyWeight x e - keyWeight x trace)
    ∧ (∀ (O : Type) [LinearOrder O] (e trace : List (O × Int)),
      e.Pairwise (fun p q => p.1 ≤ q.1) → trace.Pairwise (fun p q => p.1 ≤ q.1) →
      (ascTransform e trace).Pairwise (fun p q => p.1 ≤ q.1)) :=
  ⟨fun O _ e trace x => ascTransform_keyWeight e trace x,
   fun O _ e trace he htr => ascTransform_sorted e trace he htr⟩

/-- Witness for asc_transform_replacement: emissions [(5, 1)] against the
trace [(3, 2), (5, 1)]. -/
theorem asc_transform_replacement_witness :
    keyWeight 5 (ascTransform [((5 : Nat), (1 : Int))] [(3, 2), (5, 1)])
      = keyWeight 5 [((5 : Nat), (1 : Int))] - keyWeight 5 [((3 : Nat), (2 : Int)), (5, 1)]
    ∧ (ascTransform [((5 : Nat), (1 : Int))] [(3, 2), (5, 1)]).Pairwise
        (fun p q => p.1 ≤ q.1) :=
  ⟨asc_transform_replacement.1 Nat [(5, 1)] [(3, 2), (5, 1)] 5,
   asc_transform_replacement.2 Nat [(5, 1)] [(3, 2), (5, 1)] (by decide) (by decide)⟩

/-! ## Incremental aggregation (operator/aggregate.rs)

An indexed Z-set batch is a canonical list of ((key, val), weight) tuples,
ordered lexicographically — the pair carrying the data is a point of
Lex (K × V), matching the derived tuple Ord of the source.  The key cursor of
a batch enumerates the distinct keys in order (izKeys); positioning the cursor
on a key exposes the (val, weight) pairs of that key (izGroup), which is what
the aggregation function consumes.  Aggregate::eval walks all keys of the
batch and emits the aggregate of each with weight +1, consolidating via
from_tuples; AggregateIncremental::eval walks the keys of the delta, seeks
each in the integral, and emits the aggregate of the integral group with
weight +1 (insert_new) or -1 (retract_old) when the key is present there.
Streams are functions from the tick to the batch; integrate is the running
sum via the Z-set plus (merge-consolidate), delay shifts by one tick starting
from the empty Z-set, and differentiate adds the negation of the delayed
stream. -/

/-- An indexed Z-set batch: data is the lexicographically ordered (key, val)
pair, as in the source's tuple ordering. -/
abbrev IZ (K V : Type) := List (Lex (K × V) × Int)

/-- Z-set plus for canonical lists (batch merge): sum coincident data, drop
zero weights — consolidation of the concatenation. -/
def zAdd {T : Type} [LinearOrder T] [Inhabited T] (a b : List (T × Int)) :
    List (T × Int) :=
  consolidate (a ++ b)

/-- Z-set negation: negate every weight. -/
def zNeg {T : Type} (a : List (T × Int)) : List (T × Int) :=
  a.map (fun p => (p.1, -p.2))

/-- The distinct keys of a batch in cursor order. -/
def izKeys {K V : Type} [DecidableEq K] (b : IZ K V) : List K :=
  (b.map (fun p => (ofLex p.1).1)).dedup

/-- The (val, weight) pairs under one key of a batch: what the value cursor
exposes once the key cursor is positioned on k. -/
def izGroup {K V : Type} [DecidableEq K] (b : IZ K V) (k : K) : List (V × Int) :=
  b.filterMap (fun p =>
    if (ofLex p.1).1 = k then some ((ofLex p.1).2, p.2) else none)

/-- Canonical batch form: strictly sorted data, no zero weights. -/
def Canon {T : Type} [LinearOrder T] (l : List (T × Int)) : Prop :=
  l.Pairwise (fun p q => p.1 < q.1) ∧ ∀ p ∈ l, p.2 ≠ 0

/-- Aggregate::eval: walk every key of the batch, emit the aggregate of its
group with weight one, build the output with from_tuples (consolidation). -/
def aggEval {K V OK : Type} [LinearOrder K] [LinearOrder OK] [Inhabited OK]
    [DecidableEq V] (f : K → List (V × Int) → OK) (b : IZ K V) : List (OK × Int) :=
  consolidate ((izKeys b).map (fun k => (f k (izGroup b k), (1 : Int))))

/-- AggregateIncremental::eval: walk the keys of the delta; for each key
present in the integral, emit the aggregate of the integral's group with
weight +1 (polarity true, insert_new) or -1 (polarity false, retract_old). -/
def aggIncEval {K V OK : Type} [LinearOrder K] [LinearOrder OK] [Inhabited OK]
    [DecidableEq V] (polarity : Bool) (f : K → List (V × Int) → OK)
    (delta integral : IZ K V) : List (OK × Int) :=
  consolidate ((izKeys delta).filterMap (fun k =>
    if k ∈ izKeys integral then
      some (f k (izGroup integral k), if polarity then (1 : Int) else -1)
    else none))

/-- Stream integration: the running Z-set sum of the deltas up to the tick. -/
def integrateS {K V : Type} [LinearOrder K] [LinearOrder V] [Inhabited K]
    [Inhabited V] (s : Nat → IZ K V) : Nat → IZ K V
  | 0 => zAdd [] (s 0)
  | t + 1 => zAdd (integrateS s (t)) (s (t + 1))

/-- integrate().delay(): the integral of the previous tick, zero at tick 0. -/
def delayedIntegral {K V : Type} [LinearOrder K] [LinearOrder V] [Inhabited K]
    [Inhabited V] (s : Nat → IZ K V) : Nat → IZ K V
  | 0 => []
  | t + 1 => integrateS s t

/-- aggregate_incremental: retract_old (against the delayed integral) plus
insert_new (against the current integral), both driven by the current
delta. -/
def aggregate_incremental {K V OK : Type} [LinearOrder K] [LinearOrder V]
    [LinearOrder OK] [Inhabited K] [Inhabited V] [Inhabited OK]
    (f : K → List (V × Int) → OK) (s : Nat → IZ K V) (t : Nat) : List (OK × Int) :=
  zAdd (aggIncEval false f (s t) (delayedIntegral s t))
    (aggIncEval true f (s t) (integrateS s t))

/-- integrate().aggregate(f).differentiate(): aggregate of the current
integral plus the negation of the delayed aggregate stream (which starts at
the zero Z-set). -/
def aggregate_noninc {K V OK : Type} [LinearOrder K] [LinearOrder V]
    [LinearOrder OK] [Inhabited K] [Inhabited V] [Inhabited OK]
    (f : K → List (V × Int) → OK) (s : Nat → IZ K V) (t : Nat) : List (OK × Int) :=
  zAdd (aggEval f (integrateS s t))
    (zNeg (match t with
      | 0 => []
      | u + 1 => aggEval f (integrateS s u)))

theorem keyWeight_eq_zero {T : Type} [DecidableEq T] (x : T) (l : List (T × Int))
    (h : ∀ p ∈ l, p.1 ≠ x) : keyWeight x l = 0 := by
  induction l with
  | nil => rfl
  | cons p l ih =>
    rw [keyWeight_cons, if_neg (h p (List.mem_cons_self _ _)),
      ih (fun q hq => h q (List.mem_cons_of_mem _ hq))]
    ring

/-- In a canonical list every data value appears at most once, so the weight
assigned to the data of an entry is that entry's weight. -/
theorem canon_entry_weight {T : Type} [LinearOrder T] :
    ∀ (l : List (T × Int)), Canon l → ∀ p ∈ l, keyWeight p.1 l = p.2 := by
  intro l
  induction l with
  | nil =>
    intro _ p hp
    exact absurd hp (List.not_mem_nil p)
  | cons q rest ih =>
    intro hc p hp
    have hqr := List.pairwise_cons.mp hc.1
    rcases List.mem_cons.mp hp with h | h
    · rw [h, keyWeight_cons, if_pos rfl,
        keyWeight_eq_zero _ _ (fun r hr => ne_of_gt (h ▸ hqr.1 r hr))]
      ring
    · rw [keyWeight_cons, if_neg (ne_of_lt (hqr.1 p h)),
        ih ⟨hqr.2, fun r hr => hc.2 r (List.mem_cons_of_mem _ hr)⟩ p h]
      ring

/-- Canonical lists are determined by their weight functions. -/
theorem canon_ext {T : Type} [LinearOrder T] :
    ∀ (l1 l2 : List (T × Int)), Canon l1 → Canon l2 →
      (∀ x, keyWeight x l1 = keyWeight x l2) → l1 = l2 := by
  intro l1
  induction l1 with
  | nil =>
    intro l2 _ hc2 hw
    cases l2 with
    | nil => rfl
    | cons q l2t =>
      exfalso
      apply hc2.2 q (List.mem_cons_self _ _)
      have := hw q.1
      rw [canon_entry_weight _ hc2 q (List.mem_cons_self _ _),
        show keyWeight q.1 ([] : List (T × Int)) = 0 from rfl] at this
      exact this.symm
  | cons p l1t ih =>
    intro l2 hc1 hc2 hw
    cases l2 with
    | nil =>
      exfalso
      apply hc1.2 p (List.mem_cons_self _ _)
      have := hw p.1
      rw [canon_entry_weight _ hc1 p (List.mem_cons_self _ _)] at this
      rw [show keyWeight p.1 ([] : List (T × Int)) = 0 from rfl] at this
      exact this
    | cons q l2t =>
      have hp1 := List.pairwise_cons.mp hc1.1
      have hq2 := List.pairwise_cons.mp hc2.1
      have hc1t : Canon l1t := ⟨hp1.2, fun r hr => hc1.2 r (List.mem_cons_of_mem _ hr)⟩
      have hc2t : Canon l2t := ⟨hq2.2, fun r hr => hc2.2 r (List.mem_cons_of_mem _ hr)⟩
      rcases lt_trichotomy p.1 q.1 with hlt | heq | hgt
      · exfalso
        apply hc1.2 p (List.mem_cons_self _ _)
        have := hw p.1
        rw [canon_entry_weight _ hc1 p (List.mem_cons_self _ _), keyWeight_cons,
          if_neg (ne_of_gt hlt),
          keyWeight_eq_zero _ _ (fun r hr => ne_of_gt (lt_trans hlt (hq2.1 r hr)))] at this
        simpa using this
      · have hpq : p = q := by
          have hwp := hw p.1
          rw [canon_entry_weight _ hc1 p (List.mem_cons_self _ _), keyWeight_cons,
            if_pos heq.symm,
            keyWeight_eq_zero _ _ (fun r hr =>
              ne_of_gt (show p.1 < r.1 by rw [heq]; exact hq2.1 r hr))] at hwp
          have hw2 : p.2 = q.2 := by omega
          exact Prod.ext heq hw2
        rw [hpq]
        congr 1
        apply ih l2t hc1t hc2t
        intro x
        have hx := hw x
        rw [keyWeight_cons, keyWeight_cons, hpq] at hx
        omega
      · exfalso
        apply hc2.2 q (List.mem_cons_self _ _)
        have := hw q.1
        rw [canon_entry_weight _ hc2 q (List.mem_cons_self _ _), keyWeight_cons,
          if_neg (ne_of_gt hgt),
          keyWeight_eq_zero _ _ (fun r hr => ne_of_gt (lt_trans hgt (hp1.1 r hr)))] at this
        simpa using this.symm

theorem consolidate_canon {T : Type} [LinearOrder T] [Inhabited T]
    (l : List (T × Int)) : Canon (consolidate l) :=
  ⟨consolidate_sorted l, consolidate_nonzero l⟩

theorem zAdd_canon {T : Type} [LinearOrder T] [Inhabited T] (a b : List (T × Int)) :
    Canon (zAdd a b) :=
  consolidate_canon _

theorem zAdd_keyWeight {T : Type} [LinearOrder T] [Inhabited T]
    (x : T) (a b : List (T × Int)) :
    keyWeight x (zAdd a b) = keyWeight x a + keyWeight x b := by
  rw [zAdd, consolidate_keyWeight, keyWeight_append]

theorem zNeg_keyWeight {T : Type} [DecidableEq T] (x : T) (a : List (T × Int)) :
    keyWeight x (zNeg a) = -keyWeight x a :=
  keyWeight_neg_map x a

/-- A data value with non-zero weight puts its key into the key cursor. -/
theorem mem_izKeys_of_weight {K V : Type} [LinearOrder K] [LinearOrder V]
    (b : IZ K V) (k : K) (v : V)
    (h : keyWeight (toLex (k, v)) b ≠ 0) : k ∈ izKeys b := by
  by_contra hk
  apply h
  apply keyWeight_eq_zero
  intro p hp heq
  apply hk
  rw [izKeys, List.mem_dedup]
  exact List.mem_map.mpr ⟨p, hp, by rw [heq, ofLex_toLex]⟩

/-- In a canonical batch every enumerated key carries some value with
non-zero weight. -/
theorem weight_of_mem_izKeys {K V : Type} [LinearOrder K] [LinearOrder V]
    (b : IZ K V) (hb : Canon b) (k : K) (hk : k ∈ izKeys b) :
    ∃ v, keyWeight (toLex (k, v)) b ≠ 0 := by
  rw [izKeys, List.mem_dedup] at hk
  obtain ⟨p, hp, hpk⟩ := List.mem_map.mp hk
  refine ⟨(ofLex p.1).2, ?_⟩
  have hdata : toLex (k, (ofLex p.1).2) = p.1 := by
    rw [← hpk, Prod.mk.eta, toLex_ofLex]
  rw [hdata, canon_entry_weight b hb p hp]
  exact hb.2 p hp

/-- Equality with a lexicographic point, componentwise. -/
theorem lex_eq_iff {K V : Type} (p1 : Lex (K × V)) (k : K) (v : V) :
    p1 = toLex (k, v) ↔ (ofLex p1).1 = k ∧ (ofLex p1).2 = v := by
  constructor
  · intro h
    rw [h, ofLex_toLex]
    exact ⟨rfl, rfl⟩
  · rintro ⟨h1, h2⟩
    have h3 : toLex (ofLex p1) = toLex (k, v) := toLex_inj.mpr (Prod.ext h1 h2)
    rwa [toLex_ofLex] at h3

/-- The weight of a value in the group of key k is the weight of (k, v) in
the batch. -/
theorem izGroup_keyWeight {K V : Type} [LinearOrder K] [LinearOrder V] :
    ∀ (b : IZ K V) (k : K) (v : V),
      keyWeight v (izGroup b k) = keyWeight (toLex (k, v)) b := by
  intro b
  induction b with
  | nil =>
    intro k v
    rfl
  | cons p rest ih =>
    intro k v
    show keyWeight v (List.filterMap _ (p :: rest)) = _
    rw [List.filterMap_cons]
    by_cases hpk : (ofLex p.1).1 = k
    · rw [if_pos hpk]
      show keyWeight v (((ofLex p.1).2, p.2) :: List.filterMap _ rest) = _
      rw [keyWeight_cons, keyWeight_cons]
      have hrec : keyWeight v (List.filterMap (fun p =>
          if (ofLex p.1).1 = k then some ((ofLex p.1).2, p.2) else none) rest)
            = keyWeight (toLex (k, v)) rest := ih k v
      rw [hrec]
      congr 1
      by_cases hv : (ofLex p.1).2 = v
      · rw [if_pos hv, if_pos ((lex_eq_iff p.1 k v).mpr ⟨hpk, hv⟩)]
      · rw [if_neg hv, if_neg (fun hc => hv ((lex_eq_iff p.1 k v).mp hc).2)]
    · rw [if_neg hpk]
      show keyWeight v (List.filterMap _ rest) = _
      have hrec : keyWeight v (List.filterMap (fun p =>
          if (ofLex p.1).1 = k then some ((ofLex p.1).2, p.2) else none) rest)
            = keyWeight (toLex (k, v)) rest := ih k v
      rw [hrec, keyWeight_cons,
        if_neg (fun hc => hpk ((lex_eq_iff p.1 k v).mp hc).1)]
      omega

/-- Groups of a canonical batch are canonical: values strictly sorted, no
zero weights. -/
theorem izGroup_canon {K V : Type} [LinearOrder K] [LinearOrder V]
    (b : IZ K V) (hb : Canon b) (k : K) : Canon (izGroup b k) := by
  constructor
  · apply List.Pairwise.filterMap _ _ hb.1
    intro a a2 hlt c hc c2 hc2
    by_cases h1 : (ofLex a.1).1 = k
    · rw [if_pos h1, Option.mem_some_iff] at hc
      by_cases h2 : (ofLex a2.1).1 = k
      · rw [if_pos h2, Option.mem_some_iff] at hc2
        have hlt2 : toLex (ofLex a.1) < toLex (ofLex a2.1) := by
          rw [toLex_ofLex, toLex_ofLex]
          exact hlt
        rw [Prod.Lex.lt_iff] at hlt2
        rcases hlt2 with h | h
        · exact absurd (h1 ▸ h) (by rw [h2]; exact lt_irrefl k)
        · rw [← hc, ← hc2]
          exact h.2
      · rw [if_neg h2] at hc2
        exact absurd hc2 (by simp)
    · rw [if_neg h1] at hc
      exact absurd hc (by simp)
  · intro p hp
    obtain ⟨a, ha, hfa⟩ := List.mem_filterMap.mp hp
    by_cases h1 : (ofLex a.1).1 = k
    · rw [if_pos h1, Option.some_inj] at hfa
      rw [← hfa]
      exact hb.2 a ha
    · rw [if_neg h1] at hfa
      exact absurd hfa (by simp)

theorem keyWeight_map_agg {K OK : Type} [DecidableEq OK] (a : OK) (g : K → OK)
    (c : Int) (ks : List K) :
    keyWeight a (ks.map (fun k => (g k, c)))
      = (ks.map (fun k => if g k = a then c else 0)).sum := by
  induction ks with
  | nil => rfl
  | cons k ks ih =>
    rw [List.map_cons, keyWeight_cons, List.map_cons, List.sum_cons, ih]

theorem keyWeight_filterMap_agg {K OK : Type} [DecidableEq OK] (a : OK) (g : K → OK)
    (c : Int) (cond : K → Prop) [DecidablePred cond] (ks : List K) :
    keyWeight a (ks.filterMap (fun k => if cond k then some (g k, c) else none))
      = (ks.map (fun k => if cond k then (if g k = a then c else 0) else 0)).sum := by
  induction ks with
  | nil => rfl
  | cons k ks ih =>
    rw [List.filterMap_cons, List.map_cons, List.sum_cons]
    by_cases hk : cond k
    · rw [if_pos hk, if_pos hk]
      show keyWeight a ((g k, c) :: _) = _
      rw [keyWeight_cons, ih]
    · rw [if_neg hk, if_neg hk]
      show keyWeight a (ks.filterMap _) = _
      rw [ih]
      omega

/-- The bookkeeping identity behind incremental aggregation: when every key
outside the delta has the same presence and the same aggregate contribution in
the old and in the new integral, summing the new contributions minus the old
contributions over the delta keys only (guarded by presence) equals the
difference of the full sums. -/
theorem retract_insert_sum {K : Type} [DecidableEq K]
    (KD KI KP : Finset K) (FI FP : K → Int)
    (h : ∀ k, k ∉ KD → ((k ∈ KI ↔ k ∈ KP) ∧ FI k = FP k)) :
    (KD.sum (fun k => if k ∈ KI then FI k else 0))
      - KD.sum (fun k => if k ∈ KP then FP k else 0)
    = KI.sum FI - KP.sum FP := by
  have hdiff : KI \ KD = KP \ KD := by
    ext k
    simp only [Finset.mem_sdiff]
    constructor
    · rintro ⟨hki, hkd⟩
      exact ⟨((h k hkd).1).mp hki, hkd⟩
    · rintro ⟨hkp, hkd⟩
      exact ⟨((h k hkd).1).mpr hkp, hkd⟩
  have hsum_diff : (KI \ KD).sum FI = (KP \ KD).sum FP :=
    Finset.sum_congr hdiff (fun k hk => (h k (Finset.mem_sdiff.mp hk).2).2)
  have hI := Finset.sum_inter_add_sum_diff KI KD FI
  have hP := Finset.sum_inter_add_sum_diff KP KD FP
  have hDI : KD.sum (fun k => if k ∈ KI then FI k else 0) = (KI ∩ KD).sum FI := by
    rw [← Finset.sum_filter, Finset.filter_mem_eq_inter, Finset.inter_comm]
  have hDP : KD.sum (fun k => if k ∈ KP then FP k else 0) = (KP ∩ KD).sum FP := by
    rw [← Finset.sum_filter, Finset.filter_mem_eq_inter, Finset.inter_comm]
  rw [hDI, hDP]
  linarith [hI, hP, hsum_diff]

/-- Keys outside the delta have identical presence and identical groups in
the previous and in the current integral. -/
theorem off_delta_facts {K V : Type} [LinearOrder K] [LinearOrder V]
    (D P I : IZ K V) (hP : Canon P) (hI : Canon I)
    (hW : ∀ x, keyWeight x I = keyWeight x P + keyWeight x D)
    (k : K) (hk : k ∉ izKeys D) :
    (k ∈ izKeys I ↔ k ∈ izKeys P) ∧ izGroup I k = izGroup P k := by
  have hDzero : ∀ v : V, keyWeight (toLex (k, v)) D = 0 := by
    intro v
    by_contra hne
    exact hk (mem_izKeys_of_weight D k v hne)
  have hIW : ∀ v : V, keyWeight (toLex (k, v)) I = keyWeight (toLex (k, v)) P := by
    intro v
    rw [hW, hDzero]
    ring
  refine ⟨⟨fun hki => ?_, fun hkp => ?_⟩, ?_⟩
  · obtain ⟨v, hv⟩ := weight_of_mem_izKeys I hI k hki
    exact mem_izKeys_of_weight P k v (by rw [← hIW v]; exact hv)
  · obtain ⟨v, hv⟩ := weight_of_mem_izKeys P hP k hkp
    exact mem_izKeys_of_weight I k v (by rw [hIW v]; exact hv)
  · apply canon_ext _ _ (izGroup_canon I hI k) (izGroup_canon P hP k)
    intro v
    rw [izGroup_keyWeight, izGroup_keyWeight, hIW]

theorem aggEval_keyWeight {K V OK : Type} [LinearOrder K] [LinearOrder V]
    [LinearOrder OK] [Inhabited OK] (f : K → List (V × Int) → OK) (B : IZ K V)
    (a : OK) :
    keyWeight a (aggEval f B)
      = ((izKeys B).map
          (fun k => if f k (izGroup B k) = a then (1 : Int) else 0)).sum := by
  show keyWeight a (consolidate _) = _
  rw [consolidate_keyWeight]
  exact keyWeight_map_agg a _ _ _

theorem aggIncEval_keyWeight {K V OK : Type} [LinearOrder K] [LinearOrder V]
    [LinearOrder OK] [Inhabited OK] (pol : Bool) (f : K → List (V × Int) → OK)
    (D B : IZ K V) (a : OK) :
    keyWeight a (aggIncEval pol f D B)
      = ((izKeys D).map (fun k => if k ∈ izKeys B then
          (if f k (izGroup B k) = a then (if pol then (1 : Int) else -1) else 0)
          else 0)).sum := by
  show keyWeight a (consolidate _) = _
  rw [consolidate_keyWeight]
  exact keyWeight_filterMap_agg a _ _ _ _

/-- The per-tick weight identity: retract_old plus insert_new carries the
same weight at every output key as the differentiated aggregate of the
integral. -/
theorem tick_weight_eq {K V OK : Type} [LinearOrder K] [LinearOrder V]
    [LinearOrder OK] [Inhabited K] [Inhabited V] [Inhabited OK]
    (f : K → List (V × Int) → OK) (D P I : IZ K V)
    (hP : Canon P) (hI : Canon I)
    (hW : ∀ x, keyWeight x I = keyWeight x P + keyWeight x D) (a : OK) :
    keyWeight a (zAdd (aggIncEval false f D P) (aggIncEval true f D I))
      = keyWeight a (zAdd (aggEval f I) (zNeg (aggEval f P))) := by
  classical
  rw [zAdd_keyWeight, zAdd_keyWeight, zNeg_keyWeight,
    aggIncEval_keyWeight, aggIncEval_keyWeight, aggEval_keyWeight, aggEval_keyWeight]
  have hnodup : ∀ (b : IZ K V), (izKeys b).Nodup := fun b => List.nodup_dedup _
  -- list sums over the distinct key lists as Finset sums
  rw [← List.sum_toFinset _ (hnodup D), ← List.sum_toFinset _ (hnodup D),
    ← List.sum_toFinset _ (hnodup I), ← List.sum_toFinset _ (hnodup P)]
  have hmain := retract_insert_sum ((izKeys D).toFinset) ((izKeys I).toFinset)
    ((izKeys P).toFinset)
    (fun k => if f k (izGroup I k) = a then (1 : Int) else 0)
    (fun k => if f k (izGroup P k) = a then (1 : Int) else 0)
    (fun k hk => by
      have hfacts := off_delta_facts D P I hP hI hW k
        (fun hc => hk (List.mem_toFinset.mpr hc))
      refine ⟨?_, ?_⟩
      · rw [List.mem_toFinset, List.mem_toFinset]
        exact hfacts.1
      · show (if f k (izGroup I k) = a then (1 : Int) else 0)
          = (if f k (izGroup P k) = a then (1 : Int) else 0)
        rw [hfacts.2])
  have hretract : ((izKeys D).toFinset.sum (fun k => if k ∈ izKeys P then
        (if f k (izGroup P k) = a then (if false then (1 : Int) else -1) else 0)
        else 0))
      = -((izKeys D).toFinset.sum (fun k => if k ∈ (izKeys P).toFinset then
        (if f k (izGroup P k) = a then (1 : Int) else 0) else 0)) := by
    rw [← Finset.sum_neg_distrib]
    apply Finset.sum_congr rfl
    intro k _
    by_cases hkP : k ∈ izKeys P <;> by_cases hfa : f k (izGroup P k) = a <;>
      simp [hkP, hfa, List.mem_toFinset]
  have hinsert : ((izKeys D).toFinset.sum (fun k => if k ∈ izKeys I then
        (if f k (izGroup I k) = a then (if true then (1 : Int) else -1) else 0)
        else 0))
      = ((izKeys D).toFinset.sum (fun k => if k ∈ (izKeys I).toFinset then
        (if f k (izGroup I k) = a then (1 : Int) else 0) else 0)) := by
    apply Finset.sum_congr rfl
    intro k _
    by_cases hkI : k ∈ izKeys I <;> by_cases hfa : f k (izGroup I k) = a <;>
      simp [hkI, hfa, List.mem_toFinset]
  rw [hretract, hinsert]
  linarith [hmain]

/-- C2: for every stream of indexed Z-set deltas (each delta a canonical
batch) and every aggregation function f, the output of
aggregate_incremental(f) at every tick — computed as retract_old + insert_new,
where retract_old runs f over the pre-tick integral emitting weight -1 and
insert_new runs f over the post-tick integral emitting weight +1, both
visiting only the keys present in the current delta — equals the output of
integrate().aggregate(f).differentiate() at that tick. -/
theorem aggregate_incremental_equiv {K V OK : Type} [LinearOrder K]
    [LinearOrder V] [LinearOrder OK] [Inhabited K] [Inhabited V] [Inhabited OK]
    (f : K → List (V × Int) → OK) (s : Nat → IZ K V)
    (hs : ∀ u, Canon (s u)) (t : Nat) :
    aggregate_incremental f s t = aggregate_noninc f s t := by
  have hmatch : aggregate_noninc f s t
      = zAdd (aggEval f (integrateS s t)) (zNeg (aggEval f (delayedIntegral s t))) := by
    cases t with
    | zero => rfl
    | succ u => rfl
  have hPcanon : Canon (delayedIntegral s t) := by
    cases t with
    | zero => exact ⟨List.Pairwise.nil, fun p hp => absurd hp (List.not_mem_nil p)⟩
    | succ u =>
      show Canon (integrateS s u)
      cases u with
      | zero => exact zAdd_canon _ _
      | succ u2 => exact zAdd_canon _ _
  have hIcanon : Canon (integrateS s t) := by
    cases t with
    | zero => exact zAdd_canon _ _
    | succ u => exact zAdd_canon _ _
  have hW : ∀ x, keyWeight x (integrateS s t)
      = keyWeight x (delayedIntegral s t) + keyWeight x (s t) := by
    intro x
    cases t with
    | zero =>
      show keyWeight x (zAdd [] (s 0)) = keyWeight x [] + keyWeight x (s 0)
      rw [zAdd_keyWeight]
    | succ u =>
      show keyWeight x (zAdd (integrateS s u) (s (u + 1))) = _
      rw [zAdd_keyWeight]
      rfl
  rw [hmatch]
  exact canon_ext _ _ (zAdd_canon _ _) (zAdd_canon _ _)
    (fun a => tick_weight_eq f (s t) (delayedIntegral s t) (integrateS s t)
      hPcanon hIcanon hW a)

/-- The delta stream of the spec's aggregate-equivalence scenario. -/
def specStream : Nat → IZ Nat Nat
  | 0 => [(toLex (1, 10), 1), (toLex (1, 20), 1)]
  | 1 => [(toLex (1, 10), -1), (toLex (1, 20), 1), (toLex (2, 10), 1), (toLex (3, 10), 1)]
  | _ + 2 => []

/-- A weighted-sum aggregate tagged with the key. -/
def specSum (k : Nat) (g : List (Nat × Int)) : Int :=
  (k : Int) * 1000 + (g.map (fun p => (p.1 : Int) * p.2)).sum

/-- Witness for aggregate_incremental_equiv: the spec's example deltas with a
weighted-sum aggregate, at tick 1. -/
theorem aggregate_incremental_equiv_witness :
    aggregate_incremental specSum specStream 1 = aggregate_noninc specSum specStream 1 :=
  aggregate_incremental_equiv specSum specStream
    (fun u => by
      match u with
      | 0 => exact ⟨by decide, by decide⟩
      | 1 => exact ⟨by decide, by decide⟩
      | v + 2 => exact ⟨List.Pairwise.nil, by simp [specStream]⟩) 1

end DBSP
